import Mathlib

/-!
Verification of the mkfilter digital-filter design pipeline.

This file contains a shallow embedding of the filter-design code
(class MkFilter in mkfilter.py) over the real and complex numbers:
Python floats are modelled as real numbers, numpy complex values as
elements of the complex field, and the ValueError raised on a bad
Chebyshev ripple as an Except value.  Integer order is modelled as a
natural number (the command-line interface rejects orders below 1).
Each definition mirrors one method of the source; theorems about the
claims of the specification follow the definitions.
-/

namespace MkFilter

open Complex

noncomputable section

/-- Filter family: Butterworth, Bessel or Chebyshev
(strings Bu, Be, Ch in the source). -/
inductive FilterType where
  | Bu | Be | Ch
deriving DecidableEq

/-- Band shape: lowpass, highpass, bandpass or bandstop
(strings Lp, Hp, Bp, Bs in the source). -/
inductive BandType where
  | Lp | Hp | Bp | Bs
deriving DecidableEq

/-- The mutable state of one MkFilter object: the two PoleZeroRep
members (splane and zplane), the design parameters stored on self and
the computed coefficients and gains, exactly the fields set in
MkFilter.__init__. -/
structure MkState where
  splanePoles : List ℂ
  splaneZeros : List ℂ
  zplanePoles : List ℂ
  zplaneZeros : List ℂ
  order : ℕ
  rawAlpha1 : ℝ
  rawAlpha2 : ℝ
  warpedAlpha1 : ℝ
  warpedAlpha2 : ℝ
  chebrip : ℝ
  filterType : FilterType
  bandType : BandType
  useBlt : Bool
  prewarp : Bool
  xcoeffs : List ℝ
  ycoeffs : List ℝ
  dcGain : ℂ
  fcGain : ℂ
  hfGain : ℂ

/-- The state constructed by MkFilter.__init__ (fields that the source
initialises to None are given placeholder values of the right type;
design overwrites every field before reading it). -/
def initState : MkState where
  splanePoles := []
  splaneZeros := []
  zplanePoles := []
  zplaneZeros := []
  order := 0
  rawAlpha1 := 0
  rawAlpha2 := 0
  warpedAlpha1 := 0
  warpedAlpha2 := 0
  chebrip := 0
  filterType := FilterType.Bu
  bandType := BandType.Lp
  useBlt := true
  prewarp := true
  xcoeffs := []
  ycoeffs := []
  dcGain := 0
  fcGain := 0
  hfGain := 0

/-- The BESSEL_POLES table: one member of each complex conjugate pair,
thirty fixed constants copied from the source. -/
def BESSEL_POLES : List ℂ :=
  [ ⟨-1.00000000000, 0.00000000000⟩, ⟨-1.10160133059, 0.636009824757⟩,
    ⟨-1.32267579991, 0.00000000000⟩, ⟨-1.04740916101, 0.999264436281⟩,
    ⟨-1.37006783055, 0.410249717494⟩, ⟨-0.995208764350, 1.25710573945⟩,
    ⟨-1.50231627145, 0.00000000000⟩, ⟨-1.38087732586, 0.717909587627⟩,
    ⟨-0.957676548563, 1.47112432073⟩, ⟨-1.57149040362, 0.320896374221⟩,
    ⟨-1.38185809760, 0.971471890712⟩, ⟨-0.930656522947, 1.66186326894⟩,
    ⟨-1.68436817927, 0.00000000000⟩, ⟨-1.61203876622, 0.589244506931⟩,
    ⟨-1.37890321680, 1.19156677780⟩, ⟨-0.909867780623, 1.83645135304⟩,
    ⟨-1.75740840040, 0.272867575103⟩, ⟨-1.63693941813, 0.822795625139⟩,
    ⟨-1.37384121764, 1.38835657588⟩, ⟨-0.892869718847, 1.99832584364⟩,
    ⟨-1.85660050123, 0.00000000000⟩, ⟨-1.80717053496, 0.512383730575⟩,
    ⟨-1.65239648458, 1.03138956698⟩, ⟨-1.36758830979, 1.56773371224⟩,
    ⟨-0.878399276161, 2.14980052431⟩, ⟨-1.92761969145, 0.241623471082⟩,
    ⟨-1.84219624443, 0.727257597722⟩, ⟨-1.66181024140, 1.22110021857⟩,
    ⟨-1.36069227838, 1.73350574267⟩, ⟨-0.865756901707, 2.29260483098⟩ ]

/-- MAXORDER of the source. -/
def MAXORDER : ℕ := 10

/-- Principal complex square root as used by numpy (np.sqrt on a
complex argument), expressed through the principal complex power. -/
def csqrt (z : ℂ) : ℂ := z ^ ((2 : ℂ)⁻¹)

/-- The Bessel branch of _compute_s_plane: table offset p = order²/4,
a real first pole for odd order, then conjugate pairs. -/
def besselPoles (order : ℕ) : List ℂ :=
  let p := order * order / 4
  let firstPart := if order % 2 = 1 then [BESSEL_POLES.getD p 0] else []
  let pstart := if order % 2 = 1 then p + 1 else p
  let pairs := (List.range (order / 2)).flatMap fun i =>
    let pole := BESSEL_POLES.getD (pstart + i) 0
    [pole, star pole]
  firstPart ++ pairs

/-- The candidate angle of the Butterworth branch of _compute_s_plane:
i·π/order for odd order, (i+0.5)·π/order for even order. -/
def butterTheta (order i : ℕ) : ℝ :=
  if order % 2 = 1 then (i : ℝ) * Real.pi / (order : ℝ)
  else ((i : ℝ) + 0.5) * Real.pi / (order : ℝ)

/-- The Butterworth branch of _compute_s_plane: candidate poles
exp(jθ) for i in [0, 2·order), keeping only those in the open left
half-plane. -/
def butterPoles (order : ℕ) : List ℂ :=
  ((List.range (2 * order)).map fun i =>
    Complex.exp ((butterTheta order i : ℂ) * Complex.I)).filter
      fun pole => decide (pole.re < 0)

/-- The Chebyshev warp factor y = arcsinh(1/ε)/order with
ε = sqrt(10^(−ripple/10) − 1), from _compute_s_plane. -/
def chebY (chebrip : ℝ) (order : ℕ) : ℝ :=
  let rip := (10 : ℝ) ^ (-chebrip / 10)
  let eps := Real.sqrt (rip - 1)
  Real.arsinh (1 / eps) / (order : ℝ)

/-- The Chebyshev reshaping step of _compute_s_plane: validates the
ripple, validates y, then scales real parts by sinh y and imaginary
parts by cosh y. -/
def chebyshevAdjust (chebrip : ℝ) (order : ℕ) (poles : List ℂ) :
    Except String (List ℂ) :=
  if 0 ≤ chebrip then Except.error "Chebyshev ripple must be less than 0.0" else
  let y := chebY chebrip order
  if y ≤ 0 then Except.error "Chebyshev y must be greater than 0.0" else
  Except.ok (poles.map fun p =>
    ((p.re * Real.sinh y : ℝ) : ℂ) + ((p.im * Real.cosh y : ℝ) : ℂ) * Complex.I)

/-- _compute_s_plane: assemble the prototype pole list (Bessel table
or filtered Butterworth circle; Chebyshev starts from the Butterworth
set) and apply the Chebyshev reshaping when requested. -/
def compute_s_plane (s : MkState) : Except String MkState :=
  let poles :=
    (if s.filterType = FilterType.Be then besselPoles s.order else []) ++
    (if s.filterType = FilterType.Bu ∨ s.filterType = FilterType.Ch then
      butterPoles s.order else [])
  if s.filterType = FilterType.Ch then
    match chebyshevAdjust s.chebrip s.order poles with
    | Except.error e => Except.error e
    | Except.ok adjusted => Except.ok { s with splanePoles := adjusted }
  else Except.ok { s with splanePoles := poles }

/-- _prewarp_frequencies: identity unless both prewarping and the
bilinear transform are selected, in which case tan(π·α)/π. -/
def prewarp_frequencies (s : MkState) : MkState :=
  if s.prewarp = false ∨ s.useBlt = false then
    { s with warpedAlpha1 := s.rawAlpha1, warpedAlpha2 := s.rawAlpha2 }
  else
    { s with warpedAlpha1 := Real.tan (Real.pi * s.rawAlpha1) / Real.pi,
             warpedAlpha2 := Real.tan (Real.pi * s.rawAlpha2) / Real.pi }

/-- _normalize: transform the lowpass prototype to the requested band
shape, with w1 = 2π·warped_alpha1 and w2 = 2π·warped_alpha2. -/
def normalize (s : MkState) : MkState :=
  let w1 := 2 * Real.pi * s.warpedAlpha1
  let w2 := 2 * Real.pi * s.warpedAlpha2
  match s.bandType with
  | BandType.Lp =>
      { s with splanePoles := s.splanePoles.map fun p => p * (w1 : ℂ),
               splaneZeros := [] }
  | BandType.Hp =>
      { s with splanePoles := s.splanePoles.map fun p => (w1 : ℂ) / p,
               splaneZeros := List.replicate s.splanePoles.length 0 }
  | BandType.Bp =>
      let w0 := Real.sqrt (w1 * w2)
      let bw := w2 - w1
      let newPoles := s.splanePoles.flatMap fun pole =>
        let hba := (0.5 : ℂ) * pole * (bw : ℂ)
        let temp := csqrt (1 - ((w0 : ℂ) / hba) ^ 2)
        [hba * (1 + temp), hba * (1 - temp)]
      { s with splanePoles := newPoles,
               splaneZeros := List.replicate (newPoles.length / 2) 0 }
  | BandType.Bs =>
      let w0 := Real.sqrt (w1 * w2)
      let bw := w2 - w1
      let newPoles := s.splanePoles.flatMap fun pole =>
        let hba := (0.5 : ℂ) * (bw : ℂ) / pole
        let temp := csqrt (1 - ((w0 : ℂ) / hba) ^ 2)
        [hba * (1 + temp), hba * (1 - temp)]
      let newZeros := s.splanePoles.flatMap fun _ =>
        [(w0 : ℂ) * Complex.I, -((w0 : ℂ) * Complex.I)]
      { s with splanePoles := newPoles, splaneZeros := newZeros }

/-- _compute_z_blt: bilinear transform z = (2+s)/(2−s) on poles and
zeros, then pad the zero list with −1 until it matches the pole
count. -/
def compute_z_blt (s : MkState) : MkState :=
  let zpoles := s.splanePoles.map fun p => (2 + p) / (2 - p)
  let zzeros0 := s.splaneZeros.map fun z => (2 + z) / (2 - z)
  let zzeros := zzeros0 ++ List.replicate (zpoles.length - zzeros0.length) (-1)
  { s with zplanePoles := zpoles, zplaneZeros := zzeros }

/-- _compute_z_mzt: matched z-transform z = exp(s) on poles and zeros,
with no padding. -/
def compute_z_mzt (s : MkState) : MkState :=
  { s with zplanePoles := s.splanePoles.map Complex.exp,
           zplaneZeros := s.splaneZeros.map Complex.exp }

/-- One synthetic-multiplication step of _expand: prev carries the
coefficient shifted in from the left (initially 0). -/
def stepAux (root prev : ℂ) : List ℂ → List ℂ
  | [] => [prev]
  | c :: cs => (prev - root * c) :: stepAux root c cs

/-- Multiplication of a coefficient vector by (z − root), the body of
the loop in _expand. -/
def expandStep (coeffs : List ℂ) (root : ℂ) : List ℂ := stepAux root 0 coeffs

/-- _expand: expand a root list to monic polynomial coefficients in
ascending order of powers, starting from the vector with the single
coefficient 1. -/
def expand (roots : List ℂ) : List ℂ := roots.foldl expandStep [1]

/-- Evaluation of one coefficient vector at z, ascending powers, as in
_evaluate. -/
def evalPoly (coeffs : List ℂ) (z : ℂ) : ℂ :=
  (coeffs.enum.map fun ic => ic.2 * z ^ ic.1).sum

/-- _evaluate: the transfer function value top(z)/bot(z). -/
def evaluate (topcoeffs botcoeffs : List ℂ) (z : ℂ) : ℂ :=
  evalPoly topcoeffs z / evalPoly botcoeffs z

/-- _expand_poly: expand both z-plane root sets, record the three
reference gains, and extract the real recurrence coefficients,
normalised by the real part of the last denominator coefficient. -/
def expand_poly (s : MkState) : MkState :=
  let topcoeffs := expand s.zplaneZeros
  let botcoeffs := expand s.zplanePoles
  let dc := evaluate topcoeffs botcoeffs 1
  let theta := 2 * Real.pi * 0.5 * (s.rawAlpha1 + s.rawAlpha2)
  let fc := evaluate topcoeffs botcoeffs (Complex.exp ((theta : ℂ) * Complex.I))
  let hf := evaluate topcoeffs botcoeffs (-1)
  let lastre := (botcoeffs.getLastD 0).re
  { s with dcGain := dc, fcGain := fc, hfGain := hf,
           xcoeffs := topcoeffs.map fun c => c.re / lastre,
           ycoeffs := botcoeffs.map fun c => -c.re / lastre }

/-- The pole pair the bandpass branch of _normalize emits for one
prototype pole (the body of its loop, with w1 = 2π·warped_alpha1 and
w2 = 2π·warped_alpha2). -/
def bpPair (w1 w2 : ℝ) (pole : ℂ) : List ℂ :=
  let w0 := Real.sqrt (w1 * w2)
  let bw := w2 - w1
  let hba := (0.5 : ℂ) * pole * (bw : ℂ)
  let temp := csqrt (1 - ((w0 : ℂ) / hba) ^ 2)
  [hba * (1 + temp), hba * (1 - temp)]

/-- The pole pair the bandstop branch of _normalize emits for one
prototype pole. -/
def bsPair (w1 w2 : ℝ) (pole : ℂ) : List ℂ :=
  let w0 := Real.sqrt (w1 * w2)
  let bw := w2 - w1
  let hba := (0.5 : ℂ) * (bw : ℂ) / pole
  let temp := csqrt (1 - ((w0 : ℂ) / hba) ^ 2)
  [hba * (1 + temp), hba * (1 - temp)]

/-- The arguments of MkFilter.design (alpha2 is optional and defaults
to alpha1). -/
structure DesignParams where
  filterType : FilterType
  bandType : BandType
  order : ℕ
  alpha1 : ℝ
  alpha2 : Option ℝ
  chebrip : ℝ
  useBlt : Bool
  prewarp : Bool

/-- MkFilter.design: store the parameters on the object, then run the
pipeline _compute_s_plane, _prewarp_frequencies, _normalize, the
selected z-transform, and _expand_poly.  The ValueError raised for a
bad Chebyshev ripple becomes an error value. -/
def design (s : MkState) (p : DesignParams) : Except String MkState :=
  let s1 := { s with filterType := p.filterType, bandType := p.bandType,
                     order := p.order, rawAlpha1 := p.alpha1,
                     rawAlpha2 := p.alpha2.getD p.alpha1, chebrip := p.chebrip,
                     useBlt := p.useBlt, prewarp := p.prewarp }
  match compute_s_plane s1 with
  | Except.error e => Except.error e
  | Except.ok s2 =>
      let s3 := prewarp_frequencies s2
      let s4 := normalize s3
      let s5 := if p.useBlt then compute_z_blt s4 else compute_z_mzt s4
      Except.ok (expand_poly s5)

/-- The argument validation performed by main (mkfilter.py lines
520-530) before design is called: order in [1, MAXORDER] and the
corner count matching the band shape.  Returns false when main prints
an error and exits with status 1. -/
def mainValidate (order : ℕ) (bandType : BandType) (alphas : List ℝ) : Bool :=
  if order < 1 ∨ order > MAXORDER then false
  else if (bandType = BandType.Bp ∨ bandType = BandType.Bs) ∧ alphas.length ≠ 2 then false
  else if (bandType = BandType.Lp ∨ bandType = BandType.Hp) ∧ alphas.length ≠ 1 then false
  else true

/-- The corner count each band shape requires in main: two for
bandpass and bandstop, one for lowpass and highpass. -/
def requiredAlphas (bandType : BandType) : ℕ :=
  match bandType with
  | BandType.Bp | BandType.Bs => 2
  | BandType.Lp | BandType.Hp => 1

/-- A property of the final state holding whenever the design run
succeeds (trivially true on a failed run). -/
def onOk (P : MkState → Prop) : Except String MkState → Prop
  | Except.ok st => P st
  | Except.error _ => True

end

/-! ### Lemmas about the polynomial expansion -/

theorem stepAux_length (root : ℂ) (l : List ℂ) :
    ∀ prev : ℂ, (stepAux root prev l).length = l.length + 1 := by
  induction l with
  | nil => intro prev; rfl
  | cons c cs ih => intro prev; simp [stepAux, ih]

theorem expandStep_length (coeffs : List ℂ) (root : ℂ) :
    (expandStep coeffs root).length = coeffs.length + 1 :=
  stepAux_length root coeffs 0

theorem foldl_expandStep_length (roots : List ℂ) :
    ∀ init : List ℂ, (roots.foldl expandStep init).length =
      init.length + roots.length := by
  induction roots with
  | nil => intro init; rfl
  | cons r rs ih =>
      intro init
      rw [List.foldl_cons, ih, expandStep_length, List.length_cons]
      omega

theorem expand_length (roots : List ℂ) :
    (expand roots).length = roots.length + 1 := by
  unfold expand
  rw [foldl_expandStep_length]
  show 1 + roots.length = roots.length + 1
  omega

theorem expand_ne_nil (roots : List ℂ) : expand roots ≠ [] := by
  intro h
  have h1 := expand_length roots
  rw [h] at h1
  simp at h1

theorem stepAux_getLast? (root : ℂ) (l : List ℂ) :
    ∀ prev : ℂ, (stepAux root prev l).getLast? = some (l.getLastD prev) := by
  induction l with
  | nil => intro prev; rfl
  | cons c cs ih =>
      intro prev
      simp only [stepAux, List.getLast?_cons, List.getLastD_eq_getLast?, ih,
        Option.getD_some, List.getLast?_cons]

theorem expandStep_getLast? (coeffs : List ℂ) (root : ℂ) (x : ℂ)
    (h : coeffs.getLast? = some x) :
    (expandStep coeffs root).getLast? = some x := by
  rw [expandStep, stepAux_getLast?, List.getLastD_eq_getLast?, h]
  rfl

theorem foldl_expandStep_getLast? (roots : List ℂ) :
    ∀ (init : List ℂ) (x : ℂ), init.getLast? = some x →
      (roots.foldl expandStep init).getLast? = some x := by
  induction roots with
  | nil => intro init x h; exact h
  | cons r rs ih =>
      intro init x h
      rw [List.foldl_cons]
      exact ih _ _ (expandStep_getLast? init r x h)

theorem expand_getLast? (roots : List ℂ) :
    (expand roots).getLast? = some 1 :=
  foldl_expandStep_getLast? roots [1] 1 rfl

theorem stepAux_comm (a b : ℂ) (l : List ℂ) :
    ∀ p q pp : ℂ, p - a * q = pp - b * q →
      stepAux a p (stepAux b q l) = stepAux b pp (stepAux a q l) := by
  induction l with
  | nil =>
      intro p q pp h
      simp only [stepAux, List.cons.injEq, and_true]
      linear_combination h
  | cons x xs ih =>
      intro p q pp h
      simp only [stepAux, List.cons.injEq]
      refine ⟨by linear_combination h, ?_⟩
      exact ih _ _ _ (by ring)

theorem expandStep_comm (init : List ℂ) (a b : ℂ) :
    expandStep (expandStep init a) b = expandStep (expandStep init b) a :=
  stepAux_comm b a init 0 0 0 (by ring)

theorem perm_foldl_expandStep {l₁ l₂ : List ℂ} (h : l₁.Perm l₂) :
    ∀ init : List ℂ, l₁.foldl expandStep init = l₂.foldl expandStep init := by
  induction h with
  | nil => intro init; rfl
  | cons x _ ih => intro init; rw [List.foldl_cons, List.foldl_cons]; exact ih _
  | swap x y l =>
      intro init
      simp only [List.foldl_cons]
      rw [expandStep_comm]
  | trans _ _ ih₁ ih₂ => intro init; rw [ih₁, ih₂]

/-- Claim C7: Expand applied to the empty root collection returns the
single coefficient 1, and for every finite list of complex roots and
every permutation of that list, Expand returns the same polynomial
coefficient vector over exact complex arithmetic. -/
theorem C7_expand_empty_and_perm_invariant :
    expand ([] : List ℂ) = [1] ∧
      ∀ l₁ l₂ : List ℂ, l₁.Perm l₂ → expand l₁ = expand l₂ := by
  refine ⟨rfl, ?_⟩
  intro l₁ l₂ h
  exact perm_foldl_expandStep h [1]

/-- Witness for C7 at the concrete root lists [2, 3] and [3, 2]. -/
theorem C7_witness :
    expand ([] : List ℂ) = [1] ∧ expand [(2 : ℂ), 3] = expand [(3 : ℂ), 2] :=
  ⟨C7_expand_empty_and_perm_invariant.1,
   C7_expand_empty_and_perm_invariant.2 _ _ (List.Perm.swap 3 2 [])⟩

/-- Claim C9 (implicit): for every finite root list, the polynomial
expansion returns a coefficient vector of length exactly
len(roots) + 1 whose last (leading) coefficient equals exactly 1; this
holds in particular for the numerator and denominator expansions of
every design run, which call expand on the z-plane zero and pole
lists. -/
theorem C9_expand_monic (roots : List ℂ) :
    (expand roots).length = roots.length + 1 ∧
      (expand roots).getLast? = some 1 :=
  ⟨expand_length roots, expand_getLast? roots⟩

/-! ### Projection lemmas for the pipeline stages -/

@[simp] theorem expand_poly_xcoeffs (s : MkState) :
    (expand_poly s).xcoeffs = (expand s.zplaneZeros).map
      fun c => c.re / ((expand s.zplanePoles).getLastD 0).re := rfl

@[simp] theorem expand_poly_ycoeffs (s : MkState) :
    (expand_poly s).ycoeffs = (expand s.zplanePoles).map
      fun c => -c.re / ((expand s.zplanePoles).getLastD 0).re := rfl

@[simp] theorem expand_poly_dcGain (s : MkState) :
    (expand_poly s).dcGain =
      evaluate (expand s.zplaneZeros) (expand s.zplanePoles) 1 := rfl

@[simp] theorem expand_poly_fcGain (s : MkState) :
    (expand_poly s).fcGain =
      evaluate (expand s.zplaneZeros) (expand s.zplanePoles)
        (Complex.exp (((2 * Real.pi * 0.5 * (s.rawAlpha1 + s.rawAlpha2) : ℝ) : ℂ) *
          Complex.I)) := rfl

@[simp] theorem expand_poly_hfGain (s : MkState) :
    (expand_poly s).hfGain =
      evaluate (expand s.zplaneZeros) (expand s.zplanePoles) (-1) := rfl

@[simp] theorem expand_poly_zplanePoles (s : MkState) :
    (expand_poly s).zplanePoles = s.zplanePoles := rfl

@[simp] theorem expand_poly_zplaneZeros (s : MkState) :
    (expand_poly s).zplaneZeros = s.zplaneZeros := rfl

@[simp] theorem compute_z_blt_zplanePoles (s : MkState) :
    (compute_z_blt s).zplanePoles =
      s.splanePoles.map fun p => (2 + p) / (2 - p) := rfl

@[simp] theorem compute_z_blt_zplaneZeros (s : MkState) :
    (compute_z_blt s).zplaneZeros =
      (s.splaneZeros.map fun z => (2 + z) / (2 - z)) ++
        List.replicate ((s.splanePoles.map fun p => (2 + p) / (2 - p)).length -
          (s.splaneZeros.map fun z => (2 + z) / (2 - z)).length) (-1) := rfl

@[simp] theorem compute_z_blt_rawAlpha1 (s : MkState) :
    (compute_z_blt s).rawAlpha1 = s.rawAlpha1 := rfl

@[simp] theorem compute_z_blt_rawAlpha2 (s : MkState) :
    (compute_z_blt s).rawAlpha2 = s.rawAlpha2 := rfl

@[simp] theorem compute_z_mzt_zplanePoles (s : MkState) :
    (compute_z_mzt s).zplanePoles = s.splanePoles.map Complex.exp := rfl

@[simp] theorem compute_z_mzt_zplaneZeros (s : MkState) :
    (compute_z_mzt s).zplaneZeros = s.splaneZeros.map Complex.exp := rfl

@[simp] theorem compute_z_mzt_rawAlpha1 (s : MkState) :
    (compute_z_mzt s).rawAlpha1 = s.rawAlpha1 := rfl

@[simp] theorem compute_z_mzt_rawAlpha2 (s : MkState) :
    (compute_z_mzt s).rawAlpha2 = s.rawAlpha2 := rfl

@[simp] theorem normalize_rawAlpha1 (s : MkState) :
    (normalize s).rawAlpha1 = s.rawAlpha1 := by
  unfold normalize
  cases s.bandType <;> rfl

@[simp] theorem normalize_rawAlpha2 (s : MkState) :
    (normalize s).rawAlpha2 = s.rawAlpha2 := by
  unfold normalize
  cases s.bandType <;> rfl

@[simp] theorem normalize_splanePoles_Lp (s : MkState)
    (h : s.bandType = BandType.Lp) :
    (normalize s).splanePoles =
      s.splanePoles.map fun p => p * ((2 * Real.pi * s.warpedAlpha1 : ℝ) : ℂ) := by
  unfold normalize
  rw [h]

@[simp] theorem normalize_splaneZeros_Lp (s : MkState)
    (h : s.bandType = BandType.Lp) :
    (normalize s).splaneZeros = [] := by
  unfold normalize
  rw [h]

@[simp] theorem normalize_splanePoles_Hp (s : MkState)
    (h : s.bandType = BandType.Hp) :
    (normalize s).splanePoles =
      s.splanePoles.map fun p => ((2 * Real.pi * s.warpedAlpha1 : ℝ) : ℂ) / p := by
  unfold normalize
  rw [h]

@[simp] theorem normalize_splaneZeros_Hp (s : MkState)
    (h : s.bandType = BandType.Hp) :
    (normalize s).splaneZeros = List.replicate s.splanePoles.length 0 := by
  unfold normalize
  rw [h]

@[simp] theorem normalize_splanePoles_Bp (s : MkState)
    (h : s.bandType = BandType.Bp) :
    (normalize s).splanePoles =
      s.splanePoles.flatMap
        (bpPair (2 * Real.pi * s.warpedAlpha1) (2 * Real.pi * s.warpedAlpha2)) := by
  unfold normalize
  rw [h]
  all_goals rfl

@[simp] theorem normalize_splaneZeros_Bp (s : MkState)
    (h : s.bandType = BandType.Bp) :
    (normalize s).splaneZeros =
      List.replicate
        ((s.splanePoles.flatMap
          (bpPair (2 * Real.pi * s.warpedAlpha1)
            (2 * Real.pi * s.warpedAlpha2))).length / 2) 0 := by
  unfold normalize
  rw [h]
  all_goals rfl

@[simp] theorem normalize_splanePoles_Bs (s : MkState)
    (h : s.bandType = BandType.Bs) :
    (normalize s).splanePoles =
      s.splanePoles.flatMap
        (bsPair (2 * Real.pi * s.warpedAlpha1) (2 * Real.pi * s.warpedAlpha2)) := by
  unfold normalize
  rw [h]
  all_goals rfl

@[simp] theorem normalize_splaneZeros_Bs (s : MkState)
    (h : s.bandType = BandType.Bs) :
    (normalize s).splaneZeros =
      s.splanePoles.flatMap fun _ =>
        [((Real.sqrt (2 * Real.pi * s.warpedAlpha1 * (2 * Real.pi * s.warpedAlpha2)) : ℝ) : ℂ) *
            Complex.I,
          -(((Real.sqrt (2 * Real.pi * s.warpedAlpha1 * (2 * Real.pi * s.warpedAlpha2)) : ℝ) : ℂ) *
            Complex.I)] := by
  unfold normalize
  rw [h]

@[simp] theorem prewarp_bandType (s : MkState) :
    (prewarp_frequencies s).bandType = s.bandType := by
  unfold prewarp_frequencies
  split <;> rfl

@[simp] theorem prewarp_splanePoles (s : MkState) :
    (prewarp_frequencies s).splanePoles = s.splanePoles := by
  unfold prewarp_frequencies
  split <;> rfl

@[simp] theorem prewarp_splaneZeros (s : MkState) :
    (prewarp_frequencies s).splaneZeros = s.splaneZeros := by
  unfold prewarp_frequencies
  split <;> rfl

@[simp] theorem prewarp_rawAlpha1 (s : MkState) :
    (prewarp_frequencies s).rawAlpha1 = s.rawAlpha1 := by
  unfold prewarp_frequencies
  split <;> rfl

@[simp] theorem prewarp_rawAlpha2 (s : MkState) :
    (prewarp_frequencies s).rawAlpha2 = s.rawAlpha2 := by
  unfold prewarp_frequencies
  split <;> rfl

@[simp] theorem prewarp_warpedAlpha1 (s : MkState) :
    (prewarp_frequencies s).warpedAlpha1 =
      if s.prewarp = false ∨ s.useBlt = false then s.rawAlpha1
      else Real.tan (Real.pi * s.rawAlpha1) / Real.pi := by
  unfold prewarp_frequencies
  split <;> rfl

@[simp] theorem prewarp_warpedAlpha2 (s : MkState) :
    (prewarp_frequencies s).warpedAlpha2 =
      if s.prewarp = false ∨ s.useBlt = false then s.rawAlpha2
      else Real.tan (Real.pi * s.rawAlpha2) / Real.pi := by
  unfold prewarp_frequencies
  split <;> rfl

theorem compute_s_plane_bu (s : MkState) (h : s.filterType = FilterType.Bu) :
    compute_s_plane s = Except.ok { s with splanePoles := butterPoles s.order } := by
  simp [compute_s_plane, h]

theorem compute_s_plane_be (s : MkState) (h : s.filterType = FilterType.Be) :
    compute_s_plane s = Except.ok { s with splanePoles := besselPoles s.order } := by
  simp [compute_s_plane, h]

theorem compute_s_plane_ch (s : MkState) (h : s.filterType = FilterType.Ch) :
    compute_s_plane s =
      (chebyshevAdjust s.chebrip s.order (butterPoles s.order)).map
        fun adjusted => { s with splanePoles := adjusted } := by
  simp only [compute_s_plane]
  simp [h]
  rcases chebyshevAdjust s.chebrip s.order (butterPoles s.order) with e | adjusted <;> rfl

/-! ### Determinism of design -/

/-- Claim C8: design is deterministic.  The method overwrites every
field of the object before reading it, so running design with
identical parameter values on two objects in arbitrary prior states
(in particular: twice in a row on the same object) returns identical
results, with bit-identical numerator and denominator coefficient
sequences. -/
theorem C8_design_deterministic (s₁ s₂ : MkState) (p : DesignParams) :
    (design s₁ p).map (fun st => (st.xcoeffs, st.ycoeffs)) =
      (design s₂ p).map (fun st => (st.xcoeffs, st.ycoeffs)) := by
  obtain ⟨ft, bt, n, a1, a2, r, blt, pw⟩ := p
  cases ft with
  | Bu =>
      cases bt <;> cases blt <;> cases pw <;>
        simp only [design, compute_s_plane_bu, compute_s_plane_be, Except.map,
          Except.ok.injEq, Prod.mk.injEq, expand_poly_xcoeffs, expand_poly_ycoeffs,
          expand_poly_zplanePoles, expand_poly_zplaneZeros, compute_z_blt_zplanePoles,
          compute_z_blt_zplaneZeros, compute_z_mzt_zplanePoles, compute_z_mzt_zplaneZeros,
          normalize_splanePoles_Lp, normalize_splaneZeros_Lp, normalize_splanePoles_Hp,
          normalize_splaneZeros_Hp, normalize_splanePoles_Bp, normalize_splaneZeros_Bp,
          normalize_splanePoles_Bs, normalize_splaneZeros_Bs, prewarp_splanePoles,
          prewarp_splaneZeros, prewarp_warpedAlpha1, prewarp_warpedAlpha2,
          prewarp_bandType, and_self, eq_self_iff_true, if_true, if_false,
          Bool.false_eq_true, Bool.true_eq_false, true_or, or_true, false_or,
          or_false, or_self]
  | Be =>
      cases bt <;> cases blt <;> cases pw <;>
        simp only [design, compute_s_plane_bu, compute_s_plane_be, Except.map,
          Except.ok.injEq, Prod.mk.injEq, expand_poly_xcoeffs, expand_poly_ycoeffs,
          expand_poly_zplanePoles, expand_poly_zplaneZeros, compute_z_blt_zplanePoles,
          compute_z_blt_zplaneZeros, compute_z_mzt_zplanePoles, compute_z_mzt_zplaneZeros,
          normalize_splanePoles_Lp, normalize_splaneZeros_Lp, normalize_splanePoles_Hp,
          normalize_splaneZeros_Hp, normalize_splanePoles_Bp, normalize_splaneZeros_Bp,
          normalize_splanePoles_Bs, normalize_splaneZeros_Bs, prewarp_splanePoles,
          prewarp_splaneZeros, prewarp_warpedAlpha1, prewarp_warpedAlpha2,
          prewarp_bandType, and_self, eq_self_iff_true, if_true, if_false,
          Bool.false_eq_true, Bool.true_eq_false, true_or, or_true, false_or,
          or_false, or_self]
  | Ch =>
      cases bt <;> cases blt <;> cases pw <;>
        (rcases hA : chebyshevAdjust r n (butterPoles n) with e | poles <;>
          simp only [design, compute_s_plane_ch, hA, Except.map,
          Except.ok.injEq, Prod.mk.injEq, expand_poly_xcoeffs, expand_poly_ycoeffs,
          expand_poly_zplanePoles, expand_poly_zplaneZeros, compute_z_blt_zplanePoles,
          compute_z_blt_zplaneZeros, compute_z_mzt_zplanePoles, compute_z_mzt_zplaneZeros,
          normalize_splanePoles_Lp, normalize_splaneZeros_Lp, normalize_splanePoles_Hp,
          normalize_splaneZeros_Hp, normalize_splanePoles_Bp, normalize_splaneZeros_Bp,
          normalize_splanePoles_Bs, normalize_splaneZeros_Bs, prewarp_splanePoles,
          prewarp_splaneZeros, prewarp_warpedAlpha1, prewarp_warpedAlpha2,
          prewarp_bandType, and_self, eq_self_iff_true, if_true, if_false,
          Bool.false_eq_true, Bool.true_eq_false, true_or, or_true, false_or,
          or_false, or_self])

/-! ### The normalised denominator -/

theorem ycoeffs_getLast (zp : List ℂ) :
    ((expand zp).map
      (fun c => -c.re / ((expand zp).getLastD 0).re)).getLast? = some (-1) := by
  rw [List.getLast?_map, expand_getLast?, List.getLastD_eq_getLast?, expand_getLast?]
  simp

/-- Claim C3: for every successful design run, the last denominator
(output-tap) coefficient returned by design equals exactly −1: the
expanded denominator polynomial is monic, and the denominator
coefficients are its negated real parts divided by the real part of
its own leading coefficient. -/
theorem C3_last_denominator_minus_one (s : MkState) (p : DesignParams) :
    onOk (fun st => st.ycoeffs.getLast? = some (-1)) (design s p) := by
  obtain ⟨ft, bt, n, a1, a2, r, blt, pw⟩ := p
  cases ft with
  | Bu =>
      simp only [design, compute_s_plane_bu, onOk, expand_poly_ycoeffs]
      exact ycoeffs_getLast _
  | Be =>
      simp only [design, compute_s_plane_be, onOk, expand_poly_ycoeffs]
      exact ycoeffs_getLast _
  | Ch =>
      rcases hA : chebyshevAdjust r n (butterPoles n) with e | adjusted <;>
        simp only [design, compute_s_plane_ch, hA, Except.map, onOk,
          expand_poly_ycoeffs]
      exact ycoeffs_getLast _

/-! ### Coefficient counts -/

@[simp] theorem length_flatMap_bpPair (w1 w2 : ℝ) (l : List ℂ) :
    (l.flatMap (bpPair w1 w2)).length = 2 * l.length := by
  induction l with
  | nil => rfl
  | cons x xs ih =>
      rw [List.flatMap_cons, List.length_append, ih]
      show 2 + 2 * xs.length = 2 * (xs.length + 1)
      omega

@[simp] theorem length_flatMap_bsPair (w1 w2 : ℝ) (l : List ℂ) :
    (l.flatMap (bsPair w1 w2)).length = 2 * l.length := by
  induction l with
  | nil => rfl
  | cons x xs ih =>
      rw [List.flatMap_cons, List.length_append, ih]
      show 2 + 2 * xs.length = 2 * (xs.length + 1)
      omega

@[simp] theorem length_flatMap_pair {α : Type} (l : List α) (x y : ℂ) :
    (l.flatMap fun _ => [x, y]).length = 2 * l.length := by
  induction l with
  | nil => rfl
  | cons a as ih =>
      rw [List.flatMap_cons, List.length_append, ih]
      show 2 + 2 * as.length = 2 * (as.length + 1)
      omega

/-- Claim C2, amended: for every design run mapped with the bilinear
transform, the returned numerator and denominator coefficient
sequences have equal length (the padding step equalises the zero and
pole counts; the matched-z path does not pad, see the
counterexample). -/
theorem C2_blt_equal_lengths (s : MkState) (p : DesignParams)
    (hblt : p.useBlt = true) :
    onOk (fun st => st.xcoeffs.length = st.ycoeffs.length) (design s p) := by
  obtain ⟨ft, bt, n, a1, a2, r, blt, pw⟩ := p
  subst hblt
  have step : ∀ t : MkState, t.splaneZeros.length ≤ t.splanePoles.length →
      (expand_poly (compute_z_blt t)).xcoeffs.length =
        (expand_poly (compute_z_blt t)).ycoeffs.length := by
    intro t ht
    simp only [expand_poly_xcoeffs, expand_poly_ycoeffs, List.length_map,
      expand_length, compute_z_blt_zplanePoles, compute_z_blt_zplaneZeros,
      List.length_append, List.length_replicate]
    omega
  cases ft with
  | Bu =>
      cases bt <;>
        simp only [design, compute_s_plane_bu, onOk, if_true, eq_self_iff_true,
          normalize_splanePoles_Lp, normalize_splaneZeros_Lp,
          normalize_splanePoles_Hp, normalize_splaneZeros_Hp,
          normalize_splanePoles_Bp, normalize_splaneZeros_Bp,
          normalize_splanePoles_Bs, normalize_splaneZeros_Bs,
          prewarp_bandType, prewarp_splanePoles, prewarp_splaneZeros] <;>
        (apply step
         simp only [normalize_splanePoles_Lp, normalize_splaneZeros_Lp,
           normalize_splanePoles_Hp, normalize_splaneZeros_Hp,
           normalize_splanePoles_Bp, normalize_splaneZeros_Bp,
           normalize_splanePoles_Bs, normalize_splaneZeros_Bs,
           prewarp_bandType, prewarp_splanePoles, prewarp_splaneZeros,
           List.length_map, List.length_replicate, length_flatMap_bpPair,
           length_flatMap_bsPair, length_flatMap_pair, List.length_nil]
         omega)
  | Be =>
      cases bt <;>
        simp only [design, compute_s_plane_be, onOk, if_true, eq_self_iff_true] <;>
        (apply step
         simp only [normalize_splanePoles_Lp, normalize_splaneZeros_Lp,
           normalize_splanePoles_Hp, normalize_splaneZeros_Hp,
           normalize_splanePoles_Bp, normalize_splaneZeros_Bp,
           normalize_splanePoles_Bs, normalize_splaneZeros_Bs,
           prewarp_bandType, prewarp_splanePoles, prewarp_splaneZeros,
           List.length_map, List.length_replicate, length_flatMap_bpPair,
           length_flatMap_bsPair, length_flatMap_pair, List.length_nil]
         omega)
  | Ch =>
      rcases hA : chebyshevAdjust r n (butterPoles n) with e | adjusted <;>
        cases bt <;>
        simp only [design, compute_s_plane_ch, hA, Except.map, onOk, if_true,
          eq_self_iff_true]
      all_goals
        (apply step
         simp only [normalize_splanePoles_Lp, normalize_splaneZeros_Lp,
           normalize_splanePoles_Hp, normalize_splaneZeros_Hp,
           normalize_splanePoles_Bp, normalize_splaneZeros_Bp,
           normalize_splanePoles_Bs, normalize_splaneZeros_Bs,
           prewarp_bandType, prewarp_splanePoles, prewarp_splaneZeros,
           List.length_map, List.length_replicate, length_flatMap_bpPair,
           length_flatMap_bsPair, length_flatMap_pair, List.length_nil]
         omega)

/-- Witness for C2 at a concrete bilinear design (Butterworth lowpass,
order 0). -/
theorem C2_witness :
    onOk (fun st => st.xcoeffs.length = st.ycoeffs.length)
      (design initState
        ⟨FilterType.Bu, BandType.Lp, 0, 1/10, none, -1, true, true⟩) :=
  C2_blt_equal_lengths initState
    ⟨FilterType.Bu, BandType.Lp, 0, 1/10, none, -1, true, true⟩ rfl

/-! ### The ripple argument is ignored outside Chebyshev -/

/-- Claim C10 (implicit): for family Butterworth or Bessel, the ripple
(chebrip) argument has no effect on the output.  Two design calls that
are identical except for their chebrip values return identical
coefficients and gains, and no ripple validation is performed: the
run succeeds even when the ripple value is non-negative. -/
theorem C10_ripple_ignored_for_bu_be (s : MkState) (p : DesignParams) (r₁ r₂ : ℝ)
    (hft : p.filterType = FilterType.Bu ∨ p.filterType = FilterType.Be) :
    (design s { p with chebrip := r₁ }).map
        (fun st => (st.xcoeffs, st.ycoeffs, st.dcGain, st.fcGain, st.hfGain)) =
      (design s { p with chebrip := r₂ }).map
        (fun st => (st.xcoeffs, st.ycoeffs, st.dcGain, st.fcGain, st.hfGain)) ∧
      (design s { p with chebrip := r₁ }).isOk = true := by
  obtain ⟨ft, bt, n, a1, a2, rr, blt, pw⟩ := p
  replace hft : ft = FilterType.Bu ∨ ft = FilterType.Be := hft
  rcases hft with h | h <;> subst h <;>
    cases bt <;> cases blt <;> cases pw <;>
    constructor <;>
    simp only [design, compute_s_plane_bu, compute_s_plane_be, Except.map,
      Except.ok.injEq, Prod.mk.injEq, expand_poly_xcoeffs, expand_poly_ycoeffs,
      expand_poly_dcGain, expand_poly_fcGain, expand_poly_hfGain,
      expand_poly_zplanePoles, expand_poly_zplaneZeros, compute_z_blt_zplanePoles,
      compute_z_blt_zplaneZeros, compute_z_blt_rawAlpha1, compute_z_blt_rawAlpha2,
      compute_z_mzt_zplanePoles, compute_z_mzt_zplaneZeros, compute_z_mzt_rawAlpha1,
      compute_z_mzt_rawAlpha2, normalize_rawAlpha1, normalize_rawAlpha2,
      normalize_splanePoles_Lp, normalize_splaneZeros_Lp, normalize_splanePoles_Hp,
      normalize_splaneZeros_Hp, normalize_splanePoles_Bp, normalize_splaneZeros_Bp,
      normalize_splanePoles_Bs, normalize_splaneZeros_Bs, prewarp_splanePoles,
      prewarp_splaneZeros, prewarp_warpedAlpha1, prewarp_warpedAlpha2,
      prewarp_bandType, prewarp_rawAlpha1, prewarp_rawAlpha2, Except.isOk,
      Except.toBool, and_self, eq_self_iff_true, if_true, if_false,
      Bool.false_eq_true, Bool.true_eq_false, true_or, or_true, false_or,
      or_false, or_self]

/-- Witness for C10 at a concrete Butterworth lowpass design with
ripple values 0 (non-negative) and 5. -/
theorem C10_witness :
    ((design initState
        { (⟨FilterType.Bu, BandType.Lp, 4, 1/10, none, -1, true, true⟩ :
            DesignParams) with chebrip := 0 }).map
        (fun st => (st.xcoeffs, st.ycoeffs, st.dcGain, st.fcGain, st.hfGain)) =
      (design initState
        { (⟨FilterType.Bu, BandType.Lp, 4, 1/10, none, -1, true, true⟩ :
            DesignParams) with chebrip := 5 }).map
        (fun st => (st.xcoeffs, st.ycoeffs, st.dcGain, st.fcGain, st.hfGain))) ∧
      (design initState
        { (⟨FilterType.Bu, BandType.Lp, 4, 1/10, none, -1, true, true⟩ :
            DesignParams) with chebrip := 0 }).isOk = true :=
  C10_ripple_ignored_for_bu_be initState
    ⟨FilterType.Bu, BandType.Lp, 4, 1/10, none, -1, true, true⟩ 0 5 (Or.inl rfl)

/-! ### Chebyshev ripple validation -/

theorem chebY_pos {r : ℝ} {n : ℕ} (hr : r < 0) (hn : 1 ≤ n) : 0 < chebY r n := by
  unfold chebY
  have h10 : (1 : ℝ) < (10 : ℝ) ^ (-r / 10) := by
    apply (Real.one_lt_rpow_iff_of_pos (by norm_num)).mpr
    exact Or.inl ⟨by norm_num, by linarith⟩
  have heps : 0 < Real.sqrt ((10 : ℝ) ^ (-r / 10) - 1) :=
    Real.sqrt_pos.mpr (by linarith)
  have harg : 0 < Real.arsinh (1 / Real.sqrt ((10 : ℝ) ^ (-r / 10) - 1)) := by
    rw [Real.arsinh_pos_iff]
    exact one_div_pos.mpr heps
  have hnr : (0 : ℝ) < (n : ℝ) := by
    have h1 : (1 : ℝ) ≤ (n : ℝ) := by exact_mod_cast hn
    linarith
  exact div_pos harg hnr

/-- Claim C5: for family Chebyshev, design fails with an
invalid-parameter error whenever the ripple value is ≥ 0 and whenever
the derived warp factor y = asinh(1/ε)/order is not > 0, producing no
coefficient set in that case; for ripple < 0 (and order ≥ 1) the error
is not raised and the run succeeds. -/
theorem C5_chebyshev_ripple_checked (s : MkState) (p : DesignParams)
    (hft : p.filterType = FilterType.Ch) :
    ((0 ≤ p.chebrip ∨ chebY p.chebrip p.order ≤ 0) →
        (design s p).isOk = false) ∧
      (p.chebrip < 0 → 1 ≤ p.order → (design s p).isOk = true) := by
  obtain ⟨ft, bt, n, a1, a2, r, blt, pw⟩ := p
  replace hft : ft = FilterType.Ch := hft
  subst hft
  cases blt <;>
    (simp only [design, compute_s_plane_ch, chebyshevAdjust, Except.map,
       eq_self_iff_true, if_true, if_false, Bool.false_eq_true,
       Bool.true_eq_false]
     constructor
     · intro hbad
       split_ifs with h1 h2
       · rfl
       · rfl
       · rcases hbad with hb | hb
         · exact absurd hb h1
         · exact absurd hb h2
     · intro hr hn
       split_ifs with h1 h2
       · exact absurd h1 (not_le.mpr hr)
       · exact absurd h2 (not_le.mpr (chebY_pos hr hn))
       · rfl)

/-- Witness for C5: Chebyshev with ripple 0 fails (Scenario D of the
specification). -/
theorem C5_witness :
    (design initState
      ⟨FilterType.Ch, BandType.Lp, 4, 3/20, none, 0, true, true⟩).isOk = false :=
  (C5_chebyshev_ripple_checked initState
    ⟨FilterType.Ch, BandType.Lp, 4, 3/20, none, 0, true, true⟩ rfl).1
    (Or.inl le_rfl)

/-! ### Concrete Butterworth prototypes -/

theorem butterPoles_zero : butterPoles 0 = [] := rfl

theorem butterPoles_one : butterPoles 1 = [-1] := by
  have h0 : ((butterTheta 1 0 : ℝ) : ℂ) * Complex.I = 0 := by
    simp [butterTheta]
  have h1 : butterTheta 1 1 = Real.pi := by
    simp [butterTheta]
  have e0 : Complex.exp (((butterTheta 1 0 : ℝ) : ℂ) * Complex.I) = 1 := by
    rw [h0, Complex.exp_zero]
  have e1 : Complex.exp (((butterTheta 1 1 : ℝ) : ℂ) * Complex.I) = -1 := by
    rw [h1]
    exact Complex.exp_pi_mul_I
  have d0 : (decide ((1 : ℂ).re < 0)) = false := by
    simp
  have d1 : (decide ((-1 : ℂ).re < 0)) = true := by
    rw [decide_eq_true_eq]
    norm_num
  show (([0, 1].map fun i =>
      Complex.exp ((butterTheta 1 i : ℂ) * Complex.I)).filter
        fun pole => decide (pole.re < 0)) = [-1]
  rw [List.map_cons, List.map_cons, List.map_nil, e0, e1]
  simp only [List.filter_cons, List.filter_nil, d0, d1, if_true, if_false,
    Bool.false_eq_true, Bool.true_eq_false, eq_self_iff_true]

/-! ### Parameter validation -/

/-- Claim C1, amended: the order and corner-count validation is
performed by the command-line entry point main, not by design: main
accepts the arguments exactly when the order lies in [1, MAXORDER] and
the corner count matches the band shape, and it checks nothing about
the corner values themselves; design itself validates none of these
(see the counterexample, where design succeeds on an out-of-range
order and an out-of-range corner frequency). -/
theorem C1_cli_validation (n : ℕ) (bt : BandType) (alphas : List ℝ) :
    mainValidate n bt alphas = true ↔
      (1 ≤ n ∧ n ≤ MAXORDER ∧ alphas.length = requiredAlphas bt) := by
  cases bt <;>
    simp [mainValidate, requiredAlphas, MAXORDER] <;>
    omega

/-- Counterexample to C1 as stated: design itself raises no
invalid-parameter error.  Called directly with order 0 (outside
[1, 10]) and corner frequency 3/5 (outside (0, 0.5)), it succeeds and
returns coefficients. -/
theorem C1_counterexample :
    (design initState
      ⟨FilterType.Bu, BandType.Lp, 0, 3/5, none, -1, true, true⟩).isOk = true := by
  simp only [design, compute_s_plane_bu, Except.isOk, Except.toBool]

/-- Counterexample to C2 as stated: under the matched z-transform
(a valid mapping choice) a Butterworth lowpass of order 1 returns 1
numerator coefficient but 2 denominator coefficients, because the
matched-z path performs no zero padding. -/
theorem C2_counterexample :
    (design initState
      ⟨FilterType.Bu, BandType.Lp, 1, 1/10, none, -1, false, true⟩).map
        (fun st => (st.xcoeffs.length, st.ycoeffs.length)) = Except.ok (1, 2) := by
  simp only [design, compute_s_plane_bu, Except.map, expand_poly_xcoeffs,
    expand_poly_ycoeffs, compute_z_mzt_zplanePoles, compute_z_mzt_zplaneZeros,
    normalize_splanePoles_Lp, normalize_splaneZeros_Lp, prewarp_bandType,
    prewarp_splanePoles, prewarp_splaneZeros, butterPoles_one, List.length_map,
    expand_length, List.length_nil, List.length_cons, eq_self_iff_true, if_true,
    if_false, Bool.false_eq_true, Bool.true_eq_false, true_or, or_true,
    false_or, or_false, or_self, Except.ok.injEq, Prod.mk.injEq, and_self]

/-- Counterexample to C6 as stated: a bandpass design of order 1 under
the matched z-transform has 2 digital poles but only 1 digital zero,
not 2, because the matched-z path performs no padding. -/
theorem C6_counterexample :
    (design initState
      ⟨FilterType.Bu, BandType.Bp, 1, 1/5, some (3/10), -1, false, true⟩).map
        (fun st => (st.zplanePoles.length, st.zplaneZeros.length)) =
      Except.ok (2, 1) := by
  simp only [design, compute_s_plane_bu, Except.map, expand_poly_zplanePoles,
    expand_poly_zplaneZeros, compute_z_mzt_zplanePoles, compute_z_mzt_zplaneZeros,
    normalize_splanePoles_Bp, normalize_splaneZeros_Bp, prewarp_bandType,
    prewarp_splanePoles, prewarp_splaneZeros, butterPoles_one,
    length_flatMap_bpPair, List.length_map, List.length_replicate,
    List.length_cons, List.length_nil, eq_self_iff_true, if_true, if_false,
    Bool.false_eq_true, Bool.true_eq_false, true_or, or_true, false_or,
    or_false, or_self, Except.ok.injEq, Prod.mk.injEq, and_self]

/-! ### Counting the left-half-plane Butterworth poles -/

theorem length_filter_range_decide (a b : ℕ) (m : ℕ) :
    ((List.range m).filter fun i => decide (a ≤ i ∧ i < b)).length =
      min b m - min a m := by
  induction m with
  | zero => simp
  | succ m ih =>
      rw [List.range_succ, List.filter_append, List.length_append, ih]
      by_cases h : a ≤ m ∧ m < b
      · have hm : ([m].filter fun i => decide (a ≤ i ∧ i < b)) = [m] := by
          simp [h]
        rw [hm]
        simp only [List.length_cons, List.length_nil]
        omega
      · have hm : ([m].filter fun i => decide (a ≤ i ∧ i < b)) = [] := by
          simp only [List.filter_cons, List.filter_nil, decide_eq_true_eq]
          rw [if_neg h]
        rw [hm]
        simp only [List.length_nil]
        omega

theorem cos_neg_iff_range {x : ℝ} (h0 : 0 ≤ x) (h2 : x < 2 * Real.pi) :
    Real.cos x < 0 ↔ (Real.pi / 2 < x ∧ x < 3 * Real.pi / 2) := by
  constructor
  · intro hc
    by_contra hcon
    push_neg at hcon
    rcases le_or_lt x (Real.pi / 2) with hx | hx
    · have hge : 0 ≤ Real.cos x :=
        Real.cos_nonneg_of_mem_Icc ⟨by linarith [Real.pi_pos], hx⟩
      linarith
    · have h32 : 3 * Real.pi / 2 ≤ x := hcon hx
      have hge : 0 ≤ Real.cos (x - 2 * Real.pi) :=
        Real.cos_nonneg_of_mem_Icc ⟨by linarith, by linarith⟩
      rw [Real.cos_sub_two_pi] at hge
      linarith
  · rintro ⟨hl, hr⟩
    exact Real.cos_neg_of_pi_div_two_lt_of_lt hl (by linarith)

theorem butter_pred_odd (n i : ℕ) (hodd : n % 2 = 1) (hi : i < 2 * n) :
    (Complex.exp ((butterTheta n i : ℂ) * Complex.I)).re < 0 ↔
      ((n + 1) / 2 ≤ i ∧ i < (3 * n + 1) / 2) := by
  have hn : 0 < n := by omega
  have hnr : (0 : ℝ) < (n : ℝ) := by exact_mod_cast hn
  have hπ := Real.pi_pos
  rw [Complex.exp_ofReal_mul_I_re]
  unfold butterTheta
  rw [if_pos hodd]
  have h0 : 0 ≤ (i : ℝ) * Real.pi / (n : ℝ) := by positivity
  have h2 : (i : ℝ) * Real.pi / (n : ℝ) < 2 * Real.pi := by
    rw [div_lt_iff₀ hnr]
    have hir : (i : ℝ) < 2 * (n : ℝ) := by exact_mod_cast hi
    nlinarith
  rw [cos_neg_iff_range h0 h2]
  have key1 : Real.pi / 2 < (i : ℝ) * Real.pi / (n : ℝ) ↔ n < 2 * i := by
    rw [div_lt_div_iff₀ (by norm_num) hnr]
    constructor
    · intro h
      have hr : (n : ℝ) < 2 * (i : ℝ) := by nlinarith
      exact_mod_cast hr
    · intro h
      have hr : (n : ℝ) < 2 * (i : ℝ) := by exact_mod_cast h
      nlinarith
  have key2 : (i : ℝ) * Real.pi / (n : ℝ) < 3 * Real.pi / 2 ↔ 2 * i < 3 * n := by
    rw [div_lt_div_iff₀ hnr (by norm_num)]
    constructor
    · intro h
      have hr : 2 * (i : ℝ) < 3 * (n : ℝ) := by nlinarith
      exact_mod_cast hr
    · intro h
      have hr : 2 * (i : ℝ) < 3 * (n : ℝ) := by exact_mod_cast h
      nlinarith
  rw [key1, key2]
  omega

theorem butter_pred_even (n i : ℕ) (heven : ¬n % 2 = 1) (hn : 0 < n)
    (hi : i < 2 * n) :
    (Complex.exp ((butterTheta n i : ℂ) * Complex.I)).re < 0 ↔
      (n / 2 ≤ i ∧ i < 3 * n / 2) := by
  have hnr : (0 : ℝ) < (n : ℝ) := by exact_mod_cast hn
  have hπ := Real.pi_pos
  rw [Complex.exp_ofReal_mul_I_re]
  unfold butterTheta
  rw [if_neg heven]
  have hhalf : (0 : ℝ) ≤ (i : ℝ) + 0.5 := by positivity
  have h0 : 0 ≤ ((i : ℝ) + 0.5) * Real.pi / (n : ℝ) := by positivity
  have h2 : ((i : ℝ) + 0.5) * Real.pi / (n : ℝ) < 2 * Real.pi := by
    rw [div_lt_iff₀ hnr]
    have hir : (i : ℝ) < 2 * (n : ℝ) := by exact_mod_cast hi
    have hir2 : (i : ℝ) + 1 ≤ 2 * (n : ℝ) := by
      have : (i : ℝ) + 1 ≤ 2 * (n : ℝ) := by exact_mod_cast hi
      exact this
    nlinarith
  rw [cos_neg_iff_range h0 h2]
  have key1 : Real.pi / 2 < ((i : ℝ) + 0.5) * Real.pi / (n : ℝ) ↔ n < 2 * i + 1 := by
    rw [div_lt_div_iff₀ (by norm_num) hnr]
    constructor
    · intro h
      have hr : (n : ℝ) < 2 * (i : ℝ) + 1 := by nlinarith
      exact_mod_cast hr
    · intro h
      have hr : (n : ℝ) < 2 * (i : ℝ) + 1 := by exact_mod_cast h
      nlinarith
  have key2 : ((i : ℝ) + 0.5) * Real.pi / (n : ℝ) < 3 * Real.pi / 2 ↔
      2 * i + 1 < 3 * n := by
    rw [div_lt_div_iff₀ hnr (by norm_num)]
    constructor
    · intro h
      have hr : 2 * (i : ℝ) + 1 < 3 * (n : ℝ) := by nlinarith
      exact_mod_cast hr
    · intro h
      have hr : 2 * (i : ℝ) + 1 < 3 * (n : ℝ) := by exact_mod_cast h
      nlinarith
  rw [key1, key2]
  omega

@[simp] theorem butterPoles_length (n : ℕ) : (butterPoles n).length = n := by
  rcases Nat.eq_zero_or_pos n with rfl | hn
  · rfl
  unfold butterPoles
  rw [List.filter_map, List.length_map]
  by_cases hodd : n % 2 = 1
  · rw [List.filter_congr (q := fun i => decide ((n + 1) / 2 ≤ i ∧ i < (3 * n + 1) / 2))
      (by
        intro i hi
        rw [List.mem_range] at hi
        simp only [Function.comp]
        rw [decide_eq_decide]
        exact butter_pred_odd n i hodd hi)]
    rw [length_filter_range_decide]
    omega
  · rw [List.filter_congr (q := fun i => decide (n / 2 ≤ i ∧ i < 3 * n / 2))
      (by
        intro i hi
        rw [List.mem_range] at hi
        simp only [Function.comp]
        rw [decide_eq_decide]
        exact butter_pred_even n i hodd hn hi)]
    rw [length_filter_range_decide]
    omega

/-! ### Bessel pole counts -/

theorem besselPairs_length (k p0 : ℕ) :
    ((List.range k).flatMap fun i =>
      let pole := BESSEL_POLES.getD (p0 + i) 0
      [pole, star pole]).length = 2 * k := by
  induction k with
  | zero => rfl
  | succ k ih =>
      rw [List.range_succ, List.flatMap_append, List.length_append, ih]
      simp only [List.flatMap_cons, List.flatMap_nil, List.append_nil,
        List.length_cons, List.length_nil]
      omega

@[simp] theorem besselPoles_length (n : ℕ) : (besselPoles n).length = n := by
  by_cases hodd : n % 2 = 1 <;>
    simp only [besselPoles, hodd, eq_self_iff_true, if_true, if_false,
      List.length_append, List.length_cons, List.length_nil,
      besselPairs_length] <;>
    omega

theorem chebyshevAdjust_length {r : ℝ} {n : ℕ} {poles adjusted : List ℂ}
    (h : chebyshevAdjust r n poles = Except.ok adjusted) :
    adjusted.length = poles.length := by
  unfold chebyshevAdjust at h
  dsimp only at h
  split_ifs at h
  injection h with h
  rw [← h, List.length_map]

/-- Claim C6, amended: for every successful design of order N with N
in [1, 10]: lowpass and highpass produce N digital poles and N digital
zeros (after padding) under bilinear mapping; bandpass and bandstop
produce 2N digital poles; bandstop produces 2N digital zeros under
either mapping, while bandpass produces 2N digital zeros under
bilinear mapping (N before padding) and only N under matched-z, which
does not pad. -/
theorem C6_pole_zero_counts (s : MkState) (p : DesignParams)
    (h1 : 1 ≤ p.order) (h10 : p.order ≤ MAXORDER) :
    onOk (fun st =>
      (((p.bandType = BandType.Lp ∨ p.bandType = BandType.Hp) →
          p.useBlt = true →
          st.zplanePoles.length = p.order ∧ st.zplaneZeros.length = p.order) ∧
        ((p.bandType = BandType.Bp ∨ p.bandType = BandType.Bs) →
          st.zplanePoles.length = 2 * p.order) ∧
        (p.bandType = BandType.Bs → st.zplaneZeros.length = 2 * p.order) ∧
        (p.bandType = BandType.Bp → p.useBlt = true →
          st.zplaneZeros.length = 2 * p.order) ∧
        (p.bandType = BandType.Bp → p.useBlt = false →
          st.zplaneZeros.length = p.order))) (design s p) := by
  obtain ⟨ft, bt, n, a1, a2, r, blt, pw⟩ := p
  cases ft with
  | Bu =>
      cases bt <;> cases blt <;>
        (simp only [design, compute_s_plane_bu, onOk, if_true, if_false,
           eq_self_iff_true, Bool.false_eq_true, Bool.true_eq_false]
         simp only [expand_poly_zplanePoles, expand_poly_zplaneZeros,
           compute_z_blt_zplanePoles, compute_z_blt_zplaneZeros,
           compute_z_mzt_zplanePoles, compute_z_mzt_zplaneZeros,
           normalize_splanePoles_Lp, normalize_splaneZeros_Lp,
           normalize_splanePoles_Hp, normalize_splaneZeros_Hp,
           normalize_splanePoles_Bp, normalize_splaneZeros_Bp,
           normalize_splanePoles_Bs, normalize_splaneZeros_Bs,
           prewarp_bandType, prewarp_splanePoles, prewarp_splaneZeros,
           List.length_map, List.length_replicate, List.length_append,
           List.length_nil, length_flatMap_bpPair, length_flatMap_bsPair,
           length_flatMap_pair, butterPoles_length, besselPoles_length]
         simp
         all_goals omega)
  | Be =>
      cases bt <;> cases blt <;>
        (simp only [design, compute_s_plane_be, onOk, if_true, if_false,
           eq_self_iff_true, Bool.false_eq_true, Bool.true_eq_false]
         simp only [expand_poly_zplanePoles, expand_poly_zplaneZeros,
           compute_z_blt_zplanePoles, compute_z_blt_zplaneZeros,
           compute_z_mzt_zplanePoles, compute_z_mzt_zplaneZeros,
           normalize_splanePoles_Lp, normalize_splaneZeros_Lp,
           normalize_splanePoles_Hp, normalize_splaneZeros_Hp,
           normalize_splanePoles_Bp, normalize_splaneZeros_Bp,
           normalize_splanePoles_Bs, normalize_splaneZeros_Bs,
           prewarp_bandType, prewarp_splanePoles, prewarp_splaneZeros,
           List.length_map, List.length_replicate, List.length_append,
           List.length_nil, length_flatMap_bpPair, length_flatMap_bsPair,
           length_flatMap_pair, butterPoles_length, besselPoles_length]
         simp
         all_goals omega)
  | Ch =>
      rcases hA : chebyshevAdjust r n (butterPoles n) with e | adjusted <;>
        cases bt <;> cases blt <;>
        simp only [design, compute_s_plane_ch, hA, Except.map, onOk, if_true,
          if_false, eq_self_iff_true, Bool.false_eq_true, Bool.true_eq_false]
      all_goals
        (have hlen : adjusted.length = n := by
           rw [chebyshevAdjust_length hA, butterPoles_length]
         simp only [expand_poly_zplanePoles, expand_poly_zplaneZeros,
           compute_z_blt_zplanePoles, compute_z_blt_zplaneZeros,
           compute_z_mzt_zplanePoles, compute_z_mzt_zplaneZeros,
           normalize_splanePoles_Lp, normalize_splaneZeros_Lp,
           normalize_splanePoles_Hp, normalize_splaneZeros_Hp,
           normalize_splanePoles_Bp, normalize_splaneZeros_Bp,
           normalize_splanePoles_Bs, normalize_splaneZeros_Bs,
           prewarp_bandType, prewarp_splanePoles, prewarp_splaneZeros,
           List.length_map, List.length_replicate, List.length_append,
           List.length_nil, length_flatMap_bpPair, length_flatMap_bsPair,
           length_flatMap_pair, hlen]
         simp
         all_goals omega)

/-- Witness for C6 at a concrete bilinear Butterworth lowpass design
of order 1. -/
theorem C6_witness :
    onOk (fun st =>
      (((BandType.Lp = BandType.Lp ∨ BandType.Lp = BandType.Hp) →
          true = true → st.zplanePoles.length = 1 ∧ st.zplaneZeros.length = 1) ∧
        ((BandType.Lp = BandType.Bp ∨ BandType.Lp = BandType.Bs) →
          st.zplanePoles.length = 2 * 1) ∧
        (BandType.Lp = BandType.Bs → st.zplaneZeros.length = 2 * 1) ∧
        (BandType.Lp = BandType.Bp → true = true →
          st.zplaneZeros.length = 2 * 1) ∧
        (BandType.Lp = BandType.Bp → true = false →
          st.zplaneZeros.length = 1)))
      (design initState
        ⟨FilterType.Bu, BandType.Lp, 1, 1/4, none, -1, true, true⟩) :=
  C6_pole_zero_counts initState
    ⟨FilterType.Bu, BandType.Lp, 1, 1/4, none, -1, true, true⟩
    (by norm_num) (by norm_num [MAXORDER])

/-! ### Stability of the transforms -/

theorem csqrt_sq (z : ℂ) : csqrt z ^ 2 = z := by
  unfold csqrt
  have h := Complex.cpow_nat_inv_pow z (n := 2) (by norm_num)
  have h2 : (((2 : ℕ) : ℂ))⁻¹ = ((2 : ℂ))⁻¹ := by norm_num
  rw [h2] at h
  exact h

theorem butterPoles_re_neg {n : ℕ} {z : ℂ} (h : z ∈ butterPoles n) : z.re < 0 := by
  unfold butterPoles at h
  rw [List.mem_filter] at h
  exact of_decide_eq_true h.2

theorem chebyshevAdjust_re_neg {r : ℝ} {n : ℕ} {poles adjusted : List ℂ}
    (h : chebyshevAdjust r n poles = Except.ok adjusted)
    (hp : ∀ z ∈ poles, z.re < 0) : ∀ z ∈ adjusted, z.re < 0 := by
  unfold chebyshevAdjust at h
  dsimp only at h
  split_ifs at h with h1 h2
  have hy : 0 < chebY r n := lt_of_not_le h2
  injection h with h
  intro z hz
  rw [← h, List.mem_map] at hz
  obtain ⟨w, hw, rfl⟩ := hz
  have hre : (((w.re * Real.sinh (chebY r n) : ℝ) : ℂ) +
      ((w.im * Real.cosh (chebY r n) : ℝ) : ℂ) * Complex.I).re =
        w.re * Real.sinh (chebY r n) := by
    rw [Complex.add_re, Complex.ofReal_re, Complex.mul_re, Complex.ofReal_re,
      Complex.ofReal_im, Complex.I_re, Complex.I_im]
    ring
  rw [hre]
  exact mul_neg_of_neg_of_pos (hp w hw) (Real.sinh_pos_iff.mpr hy)

theorem quad_roots_re_neg {c : ℂ} {A : ℝ} (hA : 0 < A) (hc : c.re < 0)
    {z₁ z₂ : ℂ} (hsum : z₁ + z₂ = c) (hprod : z₁ * z₂ = (A : ℂ)) :
    z₁.re < 0 ∧ z₂.re < 0 := by
  have key : ∀ w v : ℂ, w + v = c → w * v = (A : ℂ) → w.re < 0 := by
    intro w v hs hp
    have hw : w ≠ 0 := by
      intro h0
      rw [h0, zero_mul] at hp
      have : A = 0 := by exact_mod_cast hp.symm
      linarith
    have hv : v = (A : ℂ) / w := by
      field_simp
      linear_combination hp
    by_contra hre
    push_neg at hre
    have hns : 0 < Complex.normSq w := Complex.normSq_pos.mpr hw
    have hcre : c.re = w.re + ((A : ℂ) / w).re := by
      rw [← hs, hv, Complex.add_re]
    have hdiv : ((A : ℂ) / w).re = A * w.re / Complex.normSq w := by
      rw [Complex.div_re]
      simp
    have hnn : 0 ≤ A * w.re / Complex.normSq w :=
      div_nonneg (mul_nonneg hA.le hre) hns.le
    rw [hdiv] at hcre
    linarith
  exact ⟨key z₁ z₂ hsum hprod,
    key z₂ z₁ (by rw [add_comm]; exact hsum) (by rw [mul_comm]; exact hprod)⟩

theorem blt_abs_lt_one {z : ℂ} (h : z.re < 0) :
    Complex.abs ((2 + z) / (2 - z)) < 1 := by
  have hre : (2 - z).re = 2 - z.re := by simp
  have hden : (2 - z) ≠ 0 := by
    intro h0
    rw [h0] at hre
    simp at hre
    linarith
  have habs : 0 < Complex.abs (2 - z) := by
    simpa [Complex.abs.pos_iff] using hden
  rw [map_div₀, div_lt_one habs]
  have h2 : (Complex.abs (2 + z)) ^ 2 < (Complex.abs (2 - z)) ^ 2 := by
    rw [Complex.sq_abs, Complex.sq_abs, Complex.normSq_apply, Complex.normSq_apply]
    simp only [Complex.add_re, Complex.add_im, Complex.sub_re, Complex.sub_im]
    have e2 : (2 : ℂ).re = 2 := by norm_num
    have e2i : (2 : ℂ).im = 0 := by norm_num
    rw [e2, e2i]
    nlinarith [h]
  exact lt_of_pow_lt_pow_left₀ 2 (Complex.abs.nonneg _) h2

theorem mzt_abs_lt_one {z : ℂ} (h : z.re < 0) :
    Complex.abs (Complex.exp z) < 1 := by
  rw [Complex.abs_exp]
  exact Real.exp_lt_one_iff.mpr h

theorem bpPair_re_neg {w1 w2 : ℝ} (h1 : 0 < w1) (h12 : w1 < w2) {pole z : ℂ}
    (hp : pole.re < 0) (hz : z ∈ bpPair w1 w2 pole) : z.re < 0 := by
  unfold bpPair at hz
  dsimp only at hz
  have hpole0 : pole ≠ 0 := by
    intro h0
    rw [h0] at hp
    simp at hp
  have hbw : 0 < w2 - w1 := sub_pos.mpr h12
  have hw2 : 0 < w2 := h1.trans h12
  have hAp : 0 < w1 * w2 := mul_pos h1 hw2
  set hba : ℂ := (0.5 : ℂ) * pole * ((w2 - w1 : ℝ) : ℂ) with hhba
  set temp : ℂ :=
    csqrt (1 - (((Real.sqrt (w1 * w2) : ℝ) : ℂ) / hba) ^ 2) with htemp
  have hbane : hba ≠ 0 := by
    rw [hhba]
    exact mul_ne_zero (mul_ne_zero (by norm_num) hpole0)
      (Complex.ofReal_ne_zero.mpr hbw.ne')
  have hsum : hba * (1 + temp) + hba * (1 - temp) = pole * ((w2 - w1 : ℝ) : ℂ) := by
    rw [hhba]
    ring
  have hcre : (pole * ((w2 - w1 : ℝ) : ℂ)).re = pole.re * (w2 - w1) := by
    rw [Complex.mul_re, Complex.ofReal_re, Complex.ofReal_im]
    ring
  have hcneg : (pole * ((w2 - w1 : ℝ) : ℂ)).re < 0 := by
    rw [hcre]
    exact mul_neg_of_neg_of_pos hp hbw
  have hprod : hba * (1 + temp) * (hba * (1 - temp)) = ((w1 * w2 : ℝ) : ℂ) := by
    have ht2 : temp ^ 2 =
        1 - (((Real.sqrt (w1 * w2) : ℝ) : ℂ) / hba) ^ 2 := csqrt_sq _
    have hstep : hba * (1 + temp) * (hba * (1 - temp)) =
        hba ^ 2 * (1 - temp ^ 2) := by ring
    rw [hstep, ht2]
    have hstep2 : hba ^ 2 *
        (1 - (1 - (((Real.sqrt (w1 * w2) : ℝ) : ℂ) / hba) ^ 2)) =
          hba ^ 2 * ((((Real.sqrt (w1 * w2) : ℝ) : ℂ)) ^ 2 / hba ^ 2) := by
      rw [div_pow]
      ring
    rw [hstep2, mul_div_cancel₀ _ (pow_ne_zero 2 hbane), ← Complex.ofReal_pow,
      Real.sq_sqrt hAp.le]
  have hq := quad_roots_re_neg hAp hcneg hsum hprod
  rw [List.mem_cons, List.mem_singleton] at hz
  rcases hz with hz | hz
  · rw [hz]
    exact hq.1
  · rw [hz]
    exact hq.2

theorem bsPair_re_neg {w1 w2 : ℝ} (h1 : 0 < w1) (h12 : w1 < w2) {pole z : ℂ}
    (hp : pole.re < 0) (hz : z ∈ bsPair w1 w2 pole) : z.re < 0 := by
  unfold bsPair at hz
  dsimp only at hz
  have hpole0 : pole ≠ 0 := by
    intro h0
    rw [h0] at hp
    simp at hp
  have hbw : 0 < w2 - w1 := sub_pos.mpr h12
  have hw2 : 0 < w2 := h1.trans h12
  have hAp : 0 < w1 * w2 := mul_pos h1 hw2
  set hba : ℂ := (0.5 : ℂ) * ((w2 - w1 : ℝ) : ℂ) / pole with hhba
  set temp : ℂ :=
    csqrt (1 - (((Real.sqrt (w1 * w2) : ℝ) : ℂ) / hba) ^ 2) with htemp
  have hbane : hba ≠ 0 := by
    rw [hhba]
    exact div_ne_zero (mul_ne_zero (by norm_num)
      (Complex.ofReal_ne_zero.mpr hbw.ne')) hpole0
  have hsum : hba * (1 + temp) + hba * (1 - temp) =
      ((w2 - w1 : ℝ) : ℂ) / pole := by
    rw [hhba]
    ring
  have hcre : (((w2 - w1 : ℝ) : ℂ) / pole).re =
      (w2 - w1) * pole.re / Complex.normSq pole := by
    rw [Complex.div_re, Complex.ofReal_re, Complex.ofReal_im]
    ring
  have hcneg : (((w2 - w1 : ℝ) : ℂ) / pole).re < 0 := by
    rw [hcre]
    exact div_neg_of_neg_of_pos (mul_neg_of_pos_of_neg hbw hp)
      (Complex.normSq_pos.mpr hpole0)
  have hprod : hba * (1 + temp) * (hba * (1 - temp)) = ((w1 * w2 : ℝ) : ℂ) := by
    have ht2 : temp ^ 2 =
        1 - (((Real.sqrt (w1 * w2) : ℝ) : ℂ) / hba) ^ 2 := csqrt_sq _
    have hstep : hba * (1 + temp) * (hba * (1 - temp)) =
        hba ^ 2 * (1 - temp ^ 2) := by ring
    rw [hstep, ht2]
    have hstep2 : hba ^ 2 *
        (1 - (1 - (((Real.sqrt (w1 * w2) : ℝ) : ℂ) / hba) ^ 2)) =
          hba ^ 2 * ((((Real.sqrt (w1 * w2) : ℝ) : ℂ)) ^ 2 / hba ^ 2) := by
      rw [div_pow]
      ring
    rw [hstep2, mul_div_cancel₀ _ (pow_ne_zero 2 hbane), ← Complex.ofReal_pow,
      Real.sq_sqrt hAp.le]
  have hq := quad_roots_re_neg hAp hcneg hsum hprod
  rw [List.mem_cons, List.mem_singleton] at hz
  rcases hz with hz | hz
  · rw [hz]
    exact hq.1
  · rw [hz]
    exact hq.2

theorem warped_pos (pw blt : Bool) {a : ℝ} (ha : 0 < a) (hah : a < 1/2) :
    0 < (if pw = false ∨ blt = false then a
         else Real.tan (Real.pi * a) / Real.pi) := by
  split_ifs with h
  · exact ha
  · apply div_pos _ Real.pi_pos
    apply Real.tan_pos_of_pos_of_lt_pi_div_two
    · positivity
    · nlinarith [Real.pi_pos]

theorem warped_lt (pw blt : Bool) {a b : ℝ} (ha : 0 < a) (hbh : b < 1/2)
    (hab : a < b) :
    (if pw = false ∨ blt = false then a
      else Real.tan (Real.pi * a) / Real.pi) <
    (if pw = false ∨ blt = false then b
      else Real.tan (Real.pi * b) / Real.pi) := by
  split_ifs with h
  · exact hab
  · have htan : Real.tan (Real.pi * a) < Real.tan (Real.pi * b) := by
      apply Real.tan_lt_tan_of_lt_of_lt_pi_div_two
      · nlinarith [Real.pi_pos]
      · nlinarith [Real.pi_pos]
      · nlinarith [Real.pi_pos]
    rw [div_lt_div_iff₀ Real.pi_pos Real.pi_pos]
    nlinarith [Real.pi_pos]

theorem normalize_poles_re_neg (t : MkState)
    (hL : ∀ z ∈ t.splanePoles, z.re < 0)
    (hw1 : 0 < t.warpedAlpha1)
    (hband : t.bandType = BandType.Bp ∨ t.bandType = BandType.Bs →
      t.warpedAlpha1 < t.warpedAlpha2) :
    ∀ z ∈ (normalize t).splanePoles, z.re < 0 := by
  have h2w1 : 0 < 2 * Real.pi * t.warpedAlpha1 := by
    have := Real.pi_pos
    positivity
  cases hb : t.bandType with
  | Lp =>
      rw [normalize_splanePoles_Lp t hb]
      intro z hz
      rw [List.mem_map] at hz
      obtain ⟨w, hw, rfl⟩ := hz
      have hre : (w * ((2 * Real.pi * t.warpedAlpha1 : ℝ) : ℂ)).re =
          w.re * (2 * Real.pi * t.warpedAlpha1) := by
        rw [Complex.mul_re, Complex.ofReal_re, Complex.ofReal_im]
        ring
      rw [hre]
      exact mul_neg_of_neg_of_pos (hL w hw) h2w1
  | Hp =>
      rw [normalize_splanePoles_Hp t hb]
      intro z hz
      rw [List.mem_map] at hz
      obtain ⟨w, hw, rfl⟩ := hz
      have hwne : w ≠ 0 := by
        intro h0
        have := hL w hw
        rw [h0] at this
        simp at this
      have hre : (((2 * Real.pi * t.warpedAlpha1 : ℝ) : ℂ) / w).re =
          2 * Real.pi * t.warpedAlpha1 * w.re / Complex.normSq w := by
        rw [Complex.div_re, Complex.ofReal_re, Complex.ofReal_im]
        ring
      rw [hre]
      exact div_neg_of_neg_of_pos
        (mul_neg_of_pos_of_neg h2w1 (hL w hw))
        (Complex.normSq_pos.mpr hwne)
  | Bp =>
      rw [normalize_splanePoles_Bp t hb]
      intro z hz
      rw [List.mem_flatMap] at hz
      obtain ⟨pole, hpole, hzin⟩ := hz
      have hlt : 2 * Real.pi * t.warpedAlpha1 < 2 * Real.pi * t.warpedAlpha2 := by
        have hw12 := hband (Or.inl hb)
        nlinarith [Real.pi_pos]
      exact bpPair_re_neg h2w1 hlt (hL pole hpole) hzin
  | Bs =>
      rw [normalize_splanePoles_Bs t hb]
      intro z hz
      rw [List.mem_flatMap] at hz
      obtain ⟨pole, hpole, hzin⟩ := hz
      have hlt : 2 * Real.pi * t.warpedAlpha1 < 2 * Real.pi * t.warpedAlpha2 := by
        have hw12 := hband (Or.inr hb)
        nlinarith [Real.pi_pos]
      exact bsPair_re_neg h2w1 hlt (hL pole hpole) hzin

theorem pipeline_stable (t : MkState) (useZ : Bool)
    (hL : ∀ z ∈ t.splanePoles, z.re < 0)
    (ha1 : 0 < t.rawAlpha1) (ha1h : t.rawAlpha1 < 1/2)
    (ha2 : 0 < t.rawAlpha2) (ha2h : t.rawAlpha2 < 1/2)
    (hband : t.bandType = BandType.Bp ∨ t.bandType = BandType.Bs →
      t.rawAlpha1 < t.rawAlpha2) :
    ∀ z ∈ (if useZ = true then compute_z_blt (normalize (prewarp_frequencies t))
        else compute_z_mzt (normalize (prewarp_frequencies t))).zplanePoles,
      Complex.abs z < 1 := by
  have hsp : ∀ z ∈ (normalize (prewarp_frequencies t)).splanePoles, z.re < 0 := by
    apply normalize_poles_re_neg
    · intro z hz
      rw [prewarp_splanePoles] at hz
      exact hL z hz
    · rw [prewarp_warpedAlpha1]
      exact warped_pos _ _ ha1 ha1h
    · intro h
      rw [prewarp_bandType] at h
      rw [prewarp_warpedAlpha1, prewarp_warpedAlpha2]
      exact warped_lt _ _ ha1 ha2h (hband h)
  cases useZ with
  | false =>
      rw [if_neg (by simp), compute_z_mzt_zplanePoles]
      intro z hz
      rw [List.mem_map] at hz
      obtain ⟨w, hw, rfl⟩ := hz
      exact mzt_abs_lt_one (hsp w hw)
  | true =>
      rw [if_pos rfl, compute_z_blt_zplanePoles]
      intro z hz
      rw [List.mem_map] at hz
      obtain ⟨w, hw, rfl⟩ := hz
      exact blt_abs_lt_one (hsp w hw)

/-- Claim C4, amended: for every successful design run with family
Butterworth or Chebyshev, any band shape, corners strictly between 0
and 0.5 with alpha1 < alpha2 when the band shape uses two corners, and
either mapping, every digital (z-plane) pole has magnitude strictly
less than 1. -/
theorem C4_digital_poles_stable (s : MkState) (p : DesignParams)
    (hfam : p.filterType = FilterType.Bu ∨ p.filterType = FilterType.Ch)
    (ha1 : 0 < p.alpha1) (ha1h : p.alpha1 < 1/2)
    (ha2 : 0 < p.alpha2.getD p.alpha1) (ha2h : p.alpha2.getD p.alpha1 < 1/2)
    (hband : p.bandType = BandType.Bp ∨ p.bandType = BandType.Bs →
      p.alpha1 < p.alpha2.getD p.alpha1) :
    onOk (fun st => ∀ z ∈ st.zplanePoles, Complex.abs z < 1) (design s p) := by
  obtain ⟨ft, bt, n, a1, a2, r, blt, pw⟩ := p
  replace hfam : ft = FilterType.Bu ∨ ft = FilterType.Ch := hfam
  rcases hfam with h | h <;> subst h
  · simp only [design, compute_s_plane_bu, onOk, expand_poly_zplanePoles]
    exact pipeline_stable _ blt
      (fun z hz => butterPoles_re_neg hz) ha1 ha1h ha2 ha2h hband
  · rcases hA : chebyshevAdjust r n (butterPoles n) with e | adjusted <;>
      simp only [design, compute_s_plane_ch, hA, Except.map, onOk,
        expand_poly_zplanePoles]
    exact pipeline_stable _ blt
      (chebyshevAdjust_re_neg hA fun z hz => butterPoles_re_neg hz)
      ha1 ha1h ha2 ha2h hband

/-- Witness for C4 at a concrete Butterworth lowpass design of order 1
with corner 1/4. -/
theorem C4_witness :
    onOk (fun st => ∀ z ∈ st.zplanePoles, Complex.abs z < 1)
      (design initState
        ⟨FilterType.Bu, BandType.Lp, 1, 1/4, none, -1, true, true⟩) :=
  C4_digital_poles_stable initState
    ⟨FilterType.Bu, BandType.Lp, 1, 1/4, none, -1, true, true⟩
    (Or.inl rfl) (by norm_num) (by norm_num) (by norm_num) (by norm_num)
    (by intro h; rcases h with h | h <;> cases h)

theorem csqrt_neg_real_re {x : ℝ} (hx : x < 0) : (csqrt ((x : ℝ) : ℂ)).re = 0 := by
  unfold csqrt
  have hne : ((x : ℝ) : ℂ) ≠ 0 := Complex.ofReal_ne_zero.mpr hx.ne
  rw [Complex.cpow_def_of_ne_zero hne, Complex.exp_re]
  have h2 : ((2 : ℂ))⁻¹ = ((2⁻¹ : ℝ) : ℂ) := by
    rw [Complex.ofReal_inv, Complex.ofReal_ofNat]
  have him : (Complex.log ((x : ℝ) : ℂ) * (2 : ℂ)⁻¹).im = Real.pi / 2 := by
    rw [h2, Complex.mul_im, Complex.ofReal_re, Complex.ofReal_im,
      Complex.log_im, Complex.arg_ofReal_of_neg hx]
    ring
  rw [him, Real.cos_pi_div_two, mul_zero]

/-- Counterexample to C4 as stated: corners merely in (0, 0.5) do not
guarantee stability.  A Butterworth bandpass of order 1 with corners
3/10 and 1/5 (both inside (0, 0.5) but in decreasing order) under the
matched z-transform yields digital poles of magnitude
exp(pi/10) > 1: the design succeeds and has an unstable pole. -/
theorem C4_counterexample :
    ¬ onOk (fun st => ∀ z ∈ st.zplanePoles, Complex.abs z < 1)
      (design initState
        ⟨FilterType.Bu, BandType.Bp, 1, 3/10, some (1/5), -1, false, true⟩) := by
  intro hok
  simp only [design, compute_s_plane_bu, onOk, expand_poly_zplanePoles,
    compute_z_mzt_zplanePoles, normalize_splanePoles_Bp, prewarp_bandType,
    prewarp_splanePoles, prewarp_warpedAlpha1, prewarp_warpedAlpha2,
    butterPoles_one, Option.getD_some, List.flatMap_cons, List.flatMap_nil,
    List.append_nil, eq_self_iff_true, if_true, if_false, Bool.false_eq_true,
    Bool.true_eq_false, true_or, or_true, false_or, or_false, or_self] at hok
  have h3 : Real.sqrt (2 * Real.pi * (3 / 10) * (2 * Real.pi * (1 / 5))) /
      (Real.pi / 10) = Real.sqrt (2 * Real.pi * (3 / 10) * (2 * Real.pi * (1 / 5))) *
        (10 / Real.pi) := by
    field_simp
  have hsq : (Real.sqrt (2 * Real.pi * (3 / 10) * (2 * Real.pi * (1 / 5))) /
      (Real.pi / 10)) ^ 2 = 24 := by
    rw [div_pow, Real.sq_sqrt (by positivity)]
    have hpi := Real.pi_ne_zero
    field_simp
    ring
  have hbp : bpPair (2 * Real.pi * (3 / 10)) (2 * Real.pi * (1 / 5)) (-1) =
      [((Real.pi / 10 : ℝ) : ℂ) * (1 + csqrt (((-23 : ℝ)) : ℂ)),
        ((Real.pi / 10 : ℝ) : ℂ) * (1 - csqrt (((-23 : ℝ)) : ℂ))] := by
    unfold bpPair
    dsimp only
    have h1 : (0.5 : ℂ) * (-1) *
        ((2 * Real.pi * (1 / 5) - 2 * Real.pi * (3 / 10) : ℝ) : ℂ) =
          ((Real.pi / 10 : ℝ) : ℂ) := by
      push_cast
      ring
    rw [h1]
    have h2 : (((Real.sqrt (2 * Real.pi * (3 / 10) * (2 * Real.pi * (1 / 5))) : ℝ) : ℂ) /
        ((Real.pi / 10 : ℝ) : ℂ)) ^ 2 = ((24 : ℝ) : ℂ) := by
      rw [← Complex.ofReal_div, ← Complex.ofReal_pow]
      exact_mod_cast congrArg (fun t : ℝ => ((t : ℝ) : ℂ)) hsq
    rw [h2]
    have h4 : (1 : ℂ) - ((24 : ℝ) : ℂ) = (((-23 : ℝ)) : ℂ) := by
      push_cast
      norm_num
    rw [h4]
  rw [hbp] at hok
  have hmem : Complex.exp (((Real.pi / 10 : ℝ) : ℂ) *
      (1 + csqrt (((-23 : ℝ)) : ℂ))) ∈
        List.map Complex.exp
          [((Real.pi / 10 : ℝ) : ℂ) * (1 + csqrt (((-23 : ℝ)) : ℂ)),
            ((Real.pi / 10 : ℝ) : ℂ) * (1 - csqrt (((-23 : ℝ)) : ℂ))] :=
    List.mem_map_of_mem Complex.exp (List.mem_cons_self _ _)
  have habs := hok _ hmem
  have hre : ((((Real.pi / 10 : ℝ) : ℂ)) *
      (1 + csqrt (((-23 : ℝ)) : ℂ))).re = Real.pi / 10 := by
    rw [Complex.mul_re, Complex.ofReal_re, Complex.ofReal_im, Complex.add_re,
      Complex.one_re, csqrt_neg_real_re (by norm_num : (-23 : ℝ) < 0)]
    ring
  rw [Complex.abs_exp, hre] at habs
  have hge : (1 : ℝ) ≤ Real.exp (Real.pi / 10) :=
    Real.one_le_exp (by positivity)
  linarith

end MkFilter
